import Mathlib

/-!
Verification of the parser-combinator core of command.js.

The source (a JavaScript file) defines parsers as functions taking an input
string and a Success object and returning a pair of a list of Success objects
and at most one Failure object.  Witnesses and contexts are opaque,
caller-defined JavaScript values; we embed them as the value type JSVal.
Offsets are embedded as Nat.
-/

namespace CommandJS

/-- An opaque JavaScript value: witnesses and contexts in the source are
arbitrary caller-supplied values (strings, numbers, arrays, null). -/
inductive JSVal where
  | null
  | bool (b : Bool)
  | num (n : Int)
  | str (s : String)
  | list (elems : List JSVal)

/-- Annotation labels in the source are plain property bags compared field by
field; we embed them as association lists of string-valued fields. -/
abbrev Label := List (String × String)

/-- class Annotation: the substring [start, end) is an instance of the
construct described by label.  (The source field named end is a reserved word
in Lean; we call it endPos.) -/
structure Annotation where
  start : Nat
  endPos : Nat
  label : Label
deriving DecidableEq, Repr

/-- class Success { annotations, context, end, witness }. -/
structure Success where
  annotations : List Annotation
  context : JSVal
  endPos : Nat
  witness : JSVal

/-- class Failure { annotations, completions, end, pause }.  The constructor
default in the source is pause = (completions.length == 0); every construction
site in the source passes pause explicitly, so no default is modelled. -/
structure Failure where
  annotations : List Annotation
  completions : List String
  endPos : Nat
  pause : Bool

/-- Success.initial(context): new Success([], context, 0, null). -/
def Success.initial (context : JSVal) : Success :=
  ⟨[], context, 0, .null⟩

/-- Failure.prependAnnotations. -/
def Failure.prependAnnotations (f : Failure) (annotations : List Annotation) : Failure :=
  ⟨annotations ++ f.annotations, f.completions, f.endPos, f.pause⟩

/-- A parser: takes the input string and a starting Success, returns the list
of Successes and at most one Failure (the source returns false or null for no
failure; we use Option). -/
abbrev Parser := String → Success → List Success × Option Failure

/-- function furthestSuccess(successes): Math.max over the end fields.
Math.max() of no arguments is -Infinity; we model the result as Option Nat
with none standing for -Infinity. -/
def furthestSuccess (successes : List Success) : Option Nat :=
  successes.foldl
    (fun acc s =>
      match acc with
      | none => some s.endPos
      | some m => some (max m s.endPos))
    none

/-- e >= furthest, where furthest may be -Infinity (none). -/
def endGE (e : Nat) : Option Nat → Bool
  | none => true
  | some m => m ≤ e

/-- The guard pattern failure && failure.end >= furthest && failure from the
source: keep the failure only when its end is at or after furthest. -/
def keepAtOrAfter (failure : Option Failure) (furthest : Option Nat) : Option Failure :=
  match failure with
  | some fl => if endGE fl.endPos furthest then some fl else none
  | none => none

/-- Math.max of a plain number and a possibly -Infinity value (used by the
furthest accumulator in parseChain, which starts at 0). -/
def natMaxOpt (n : Nat) : Option Nat → Nat
  | none => n
  | some m => max n m

/-- function mergeAnnotations(annotations1, annotations2): the source inserts
both lists into a JS Set and returns the insertion-ordered elements.  The
result model treats annotations as immutable values (as the specification's
lifecycle section states), so Set identity coincides with structural equality:
keep the first occurrence of each annotation, in order. -/
def mergeAnnotations (annotations1 annotations2 : List Annotation) : List Annotation :=
  (annotations1 ++ annotations2).foldl
    (fun acc a => if a ∈ acc then acc else acc ++ [a]) []

/-- Lexicographic comparison of character lists: the order used by the
argumentless JavaScript Array.prototype.sort on strings. -/
def charListLe : List Char → List Char → Bool
  | [], _ => true
  | _ :: _, [] => false
  | a :: as, b :: bs => if a = b then charListLe as bs else decide (a < b)

/-- String comparison used by the default sort in normalizeCompletions. -/
def strLe (s1 s2 : String) : Bool :=
  charListLe s1.data s2.data

/-- Insert a string into a sorted list (one step of sorting). -/
def insertSorted (s : String) : List String → List String
  | [] => [s]
  | c :: rest => if strLe s c then s :: c :: rest else c :: insertSorted s rest

/-- completions.slice().sort(): sort the list of strings lexicographically
(insertion sort; the source's sort is only used for its order). -/
def sortStrings : List String → List String
  | [] => []
  | s :: rest => insertSorted s (sortStrings rest)

/-- s.startsWith(t) from JavaScript: t is a prefix of s. -/
def jsStartsWith (s t : String) : Bool :=
  t.data.isPrefixOf s.data

/-- The accumulator loop of normalizeCompletions: walk the sorted tail,
dropping every string that starts with the most recently retained string
(accumulator[i] in the source). -/
def retainShortest (last : String) : List String → List String
  | [] => []
  | c :: rest =>
    if jsStartsWith c last then retainShortest last rest
    else c :: retainShortest c rest

/-- function normalizeCompletions(completions): sort, keep the first element,
then retain only entries that do not extend the previously retained entry. -/
def normalizeCompletions (completions : List String) : List String :=
  match sortStrings completions with
  | [] => []
  | first :: rest => first :: retainShortest first rest

/-- function mergeFailures(f1, f2). -/
def mergeFailures : Option Failure → Option Failure → Option Failure
  | none, f2 => f2
  | some f1, none => some f1
  | some f1, some f2 =>
    if f1.endPos = f2.endPos then
      some ⟨mergeAnnotations f1.annotations f2.annotations,
            normalizeCompletions (f1.completions ++ f2.completions),
            f1.endPos,
            f1.pause || f2.pause⟩
    else if f1.endPos < f2.endPos then some f2 else some f1

/-- function mergeSuccessAnnotations(successes):
successes.map(s => s.annotations).reduce(mergeAnnotations, []). -/
def mergeSuccessAnnotations (successes : List Success) : List Annotation :=
  (successes.map Success.annotations).foldl mergeAnnotations []

/-- Length of the longest common prefix of two character lists (the count the
loop in substringMatchForward computes). -/
def commonPrefixLength : List Char → List Char → Nat
  | a :: as, b :: bs => if a = b then commonPrefixLength as bs + 1 else 0
  | _, _ => 0

/-- function substringMatchForward(string1, start1, end1, string2, start2, end2):
the loop compares string1[start1+i] with string2[start2+i] for
i < min(end1-start1, end2-start2), counting matches until the first mismatch
(an out-of-range access reads undefined and mismatches, which the drop below
reproduces by exhausting the list). -/
def substringMatchForward (string1 : List Char) (start1 end1 : Nat)
    (string2 : List Char) (start2 end2 : Nat) : Nat :=
  commonPrefixLength
    ((string1.drop start1).take (min (end1 - start1) (end2 - start2)))
    (string2.drop start2)

/-- function stringMatchForward(string1, string2): longest common prefix. -/
def stringMatchForward (s1 s2 : List Char) : Nat :=
  substringMatchForward s1 0 s1.length s2 0 s2.length

/-- function parseConstant(constant, witness=constant).  The default witness
(the literal itself, as a string value) is passed explicitly at use sites. -/
def parseConstant (c : String) (witness : JSVal) : Parser :=
  fun input success =>
    let size := c.data.length
    let start := success.endPos
    let comparisonSize := min size (input.data.length - start)
    let matchSize :=
      substringMatchForward input.data start (start + comparisonSize)
        c.data 0 comparisonSize
    if matchSize = size then
      ([⟨success.annotations, success.context, start + size, witness⟩], none)
    else
      ([], some ⟨[], [String.mk (c.data.drop matchSize)], start + matchSize, false⟩)

/-- function parseFail(input, success): no successes, one Failure at the
current position with no completions and pause passed explicitly as false. -/
def parseFail : Parser :=
  fun _ success => ([], some ⟨[], [], success.endPos, false⟩)

/-- function parseEmpty(witness = "empty"): match the empty string. -/
def parseEmpty (witness : JSVal) : Parser :=
  fun _ success =>
    ([⟨success.annotations, success.context, success.endPos, witness⟩], none)

/-- function parseAlternatives(parser1, parser2). -/
def parseAlternatives (parser1 parser2 : Parser) : Parser :=
  fun input success =>
    let r1 := parser1 input success
    let r2 := parser2 input success
    let successes := r1.1 ++ r2.1
    let furthest := furthestSuccess successes
    (successes,
     mergeFailures (keepAtOrAfter r1.2 furthest) (keepAtOrAfter r2.2 furthest))

/-- function parseChoice(...parsers): parsers.reduce(parseAlternatives, parseFail). -/
def parseChoice (parsers : List Parser) : Parser :=
  parsers.foldl parseAlternatives parseFail

/-- function parseChain(mergeWitnesses, parser1, chain): run parser1, then for
each of its successes the parser chain builds from that success, merging all
failures and keeping the merged failure only at or after the furthest success
of the continuations (the accumulator furthest starts at 0 in the source). -/
def parseChain (mergeWitnesses : JSVal → JSVal → JSVal) (parser1 : Parser)
    (chain : Success → Parser) : Parser :=
  fun input success =>
    let r1 := parser1 input success
    let final := r1.1.foldl
      (fun (acc : Option Failure × Nat × List Success) s1 =>
        let r2 := (chain s1) input s1
        (mergeFailures acc.1 (r2.2.map fun fl => fl.prependAnnotations s1.annotations),
         natMaxOpt acc.2.1 (furthestSuccess r2.1),
         acc.2.2 ++ r2.1.map fun s =>
           ⟨s.annotations, s.context, s.endPos, mergeWitnesses s1.witness s.witness⟩))
      (r1.2, 0, [])
    (final.2.2, keepAtOrAfter final.1 (some final.2.1))

/-- function parseThen(mergeWitnesses, parser1, parser2):
parseChain with a continuation that ignores the success. -/
def parseThen (mergeWitnesses : JSVal → JSVal → JSVal)
    (parser1 parser2 : Parser) : Parser :=
  parseChain mergeWitnesses parser1 (fun _ => parser2)

/-- function parseTransform(parser, transform): map transform over the
witnesses of all successes. -/
def parseTransform (parser : Parser) (transform : JSVal → JSVal) : Parser :=
  fun input success =>
    let r := parser input success
    (r.1.map fun s => ⟨s.annotations, s.context, s.endPos, transform s.witness⟩,
     r.2)

/-- function categorize(array, predicate): split into (positives, negatives)
preserving order (the source does it in one pass; a filter pair is the same). -/
def categorize (array : List Success) (p : Success → Bool) :
    List Success × List Success :=
  (array.filter p, array.filter fun s => !(p s))

/-- function parseNonEmpty(parser): drop zero-width successes; if any were
dropped and the inner parser reported no failure, synthesize a Failure at the
start position. -/
def parseNonEmpty (parser : Parser) : Parser :=
  fun input success =>
    let r := parser input success
    let start := success.endPos
    let cat := categorize r.1 (fun s => start == s.endPos)
    if cat.1.isEmpty then r
    else (cat.2,
          match r.2 with
          | some fl => some fl
          | none => some ⟨[], [], start, false⟩)

/-- [w1, ...w2] from the source: cons a witness onto an array witness. -/
def jsSpreadCons (w1 w2 : JSVal) : JSVal :=
  match w2 with
  | .list l => .list (w1 :: l)
  | _ => .list [w1]

/-- The self-referential parseKleene from parseStar:
parseAlternatives(parseEmpty([]), parseThen((w1, w2) => [w1, ...w2], parser,
lazy recursive call)).  The source defers the recursive call with a thunk and
unrolls it only when a repetition succeeded; fuel bounds that unrolling, and
when the fuel is not exhausted on a given input the result coincides with the
source's.  At fuel 0 only the stop branch remains. -/
def parseKleene (parser : Parser) : Nat → Parser
  | 0 => parseEmpty (.list [])
  | fuel + 1 =>
    parseAlternatives (parseEmpty (.list []))
      (parseThen jsSpreadCons parser
        (fun input success => parseKleene parser fuel input success))

/-- function parseStar(mergeWitnesses, parser), with the lazy recursion made
explicit by fuel. -/
def parseStar (fuel : Nat) (mergeWitnesses : JSVal → JSVal) (parser : Parser) : Parser :=
  parseTransform (parseKleene parser fuel) mergeWitnesses

/-- function parseWithCompletions(makeCompletions, parser).  furthestSuccess of
an empty success list is -Infinity in the source (getD 0 here); an inner parser
obeying the result invariant never reaches that case with no failure. -/
def parseWithCompletions
    (makeCompletions : JSVal → Option Failure → Nat → List String)
    (parser : Parser) : Parser :=
  fun input success =>
    let r := parser input success
    let completions := makeCompletions success.context r.2 success.endPos
    match r.2 with
    | some fl => (r.1, some ⟨fl.annotations, completions, fl.endPos, false⟩)
    | none =>
      if completions.isEmpty then (r.1, none)
      else (r.1,
            some ⟨mergeSuccessAnnotations r.1, completions,
                  (furthestSuccess r.1).getD 0, false⟩)

/-- new Set(list): deduplicate keeping the first occurrence of each element,
in insertion order. -/
def insertionDedup (l : List String) : List String :=
  l.foldl (fun acc c => if c ∈ acc then acc else acc ++ [c]) []

/-- The inner function choose(choices) of parseSubset: parse one of the
remaining constants, then optionally a separator and a recursive choose on the
set with the chosen constant deleted.  The source recursion always removes the
chosen witness from choices, so fuel = number of constants is enough; at fuel 0
only the stop case remains. -/
def chooseSubset (parseSeparator : Parser) : Nat → List String → Parser
  | 0, _ => parseEmpty (.list [])
  | fuel + 1, choices =>
    parseChain jsSpreadCons
      (parseChoice (choices.map fun c => parseConstant c (.str c)))
      (fun success =>
        let fewer :=
          match success.witness with
          | .str w => choices.erase w
          | _ => choices
        if fewer.isEmpty then parseEmpty (.list [])
        else
          parseAlternatives (parseEmpty (.list []))
            (parseThen (fun _ f => f) parseSeparator
              (chooseSubset parseSeparator fuel fewer)))

/-- function parseSubset(constants, parseSeparator): any subset of the
constants, each used at most once, separated by parseSeparator. -/
def parseSubset (constants : List String) (parseSeparator : Parser) : Parser :=
  if constants.isEmpty then parseEmpty (.list [])
  else
    parseAlternatives (parseEmpty (.list []))
      (chooseSubset parseSeparator constants.length (insertionDedup constants))

/-- A join function that concatenates a list of string witnesses into one
string witness (the join of the C5 example). -/
def concatStringWitnesses : JSVal → JSVal
  | .list ws =>
    .str (ws.foldl (fun acc w => acc ++ match w with | .str s => s | _ => "") "")
  | w => w

/-- Check that a witness is a given string value. -/
def JSVal.isStr : JSVal → String → Bool
  | .str s, t => s == t
  | _, _ => false

/-- The parser reaches a success consuming the entire input when started from
the initial Success with a null context. -/
def acceptsFully (p : Parser) (input : String) : Bool :=
  ((p input (Success.initial .null)).1.any fun s => s.endPos == input.data.length)

theorem commonPrefixLength_le_left (xs ys : List Char) :
    commonPrefixLength xs ys ≤ xs.length := by
  induction xs generalizing ys with
  | nil => simp [commonPrefixLength]
  | cons a as ih =>
    cases ys with
    | nil => simp [commonPrefixLength]
    | cons b bs =>
      simp only [commonPrefixLength, List.length_cons]
      split
      · exact Nat.succ_le_succ (ih bs)
      · exact Nat.zero_le _

theorem commonPrefixLength_le_right (xs ys : List Char) :
    commonPrefixLength xs ys ≤ ys.length := by
  induction xs generalizing ys with
  | nil => simp [commonPrefixLength]
  | cons a as ih =>
    cases ys with
    | nil => simp [commonPrefixLength]
    | cons b bs =>
      simp only [commonPrefixLength, List.length_cons]
      split
      · exact Nat.succ_le_succ (ih bs)
      · exact Nat.zero_le _

theorem commonPrefixLength_take (xs ys : List Char) (k : Nat) :
    commonPrefixLength (xs.take k) ys = min (commonPrefixLength xs ys) k := by
  induction xs generalizing ys k with
  | nil => simp [commonPrefixLength]
  | cons a as ih =>
    cases k with
    | zero => simp [commonPrefixLength]
    | succ k =>
      cases ys with
      | nil => simp [commonPrefixLength]
      | cons b bs =>
        simp only [List.take_succ_cons, commonPrefixLength]
        split
        · rw [ih bs k, Nat.succ_min_succ]
        · simp

/-- The match length computed by parseConstant is the length of the longest
common prefix of the remaining input and the constant: the comparison-size
truncation never cuts the common prefix short. -/
theorem parseConstant_matchSize (input c : List Char) (start : Nat) :
    substringMatchForward input start
        (start + min c.length (input.length - start)) c 0
        (min c.length (input.length - start))
      = commonPrefixLength (input.drop start) c := by
  unfold substringMatchForward
  rw [Nat.add_sub_cancel_left, Nat.sub_zero, min_self, List.drop_zero,
      commonPrefixLength_take]
  refine Nat.min_eq_left (le_min ?_ ?_)
  · exact le_trans (commonPrefixLength_le_right _ _) (le_refl _)
  · calc commonPrefixLength (input.drop start) c ≤ (input.drop start).length :=
          commonPrefixLength_le_left _ _
      _ = input.length - start := List.length_drop _ _

/-- parseConstant, characterized by the longest common prefix of the remaining
input and the constant. -/
theorem parseConstant_eq (c : String) (w : JSVal) (input : String) (s : Success) :
    parseConstant c w input s =
      if commonPrefixLength (input.data.drop s.endPos) c.data = c.data.length then
        ([⟨s.annotations, s.context, s.endPos + c.data.length, w⟩], none)
      else
        ([], some ⟨[],
          [String.mk (c.data.drop
            (commonPrefixLength (input.data.drop s.endPos) c.data))],
          s.endPos + commonPrefixLength (input.data.drop s.endPos) c.data,
          false⟩) := by
  simp only [parseConstant, parseConstant_matchSize]

/-- Claim C1 (code bug witness): the result invariant — a returned Failure
ends at or after every returned Success — is violated by a parser built from
the core combinators.  parseNonEmpty(parseAlternatives(parseEmpty("w"),
parseConstant("ab"))) on input "ab" from the initial Success returns the
single Success ending at 2 together with a synthesized Failure ending at 0,
contradicting the invariant asserted by parseCheckInvariants and by the
source's header comment. -/
theorem parseNonEmpty_invariant_violation :
    ((parseNonEmpty (parseAlternatives (parseEmpty (.str "w"))
        (parseConstant "ab" (.str "ab"))) "ab" (Success.initial .null)).1.map
          Success.endPos = [2]) ∧
    ((parseNonEmpty (parseAlternatives (parseEmpty (.str "w"))
        (parseConstant "ab" (.str "ab"))) "ab" (Success.initial .null)).2.map
          Failure.endPos = some 0) := by
  decide

/-- Claim C4 (counterexample): parseFail's Failure has pause = false, not
pause = true: the source passes false explicitly instead of relying on the
constructor default pause = (completions.length == 0). -/
theorem parseFail_pause_counterexample :
    ((parseFail "" (Success.initial .null)).2.map Failure.pause) = some false ∧
    ((parseFail "" (Success.initial .null)).2.map Failure.pause) ≠ some true := by
  decide

/-- Claim C4 (amended): for every input string and starting Success, parseFail
returns no Successes and exactly one Failure at the starting Success's end,
with empty completions and pause = false (passed explicitly, overriding the
default rule). -/
theorem parseFail_amended (input : String) (s : Success) :
    parseFail input s = ([], some ⟨[], [], s.endPos, false⟩) :=
  rfl

/-- Claim C5 (counterexample): parseStar(join, parseConstant("ab")) on input
"ababa" returns a Failure whose pause is false, not true: the failure comes
from parseConstant, which always sets pause = false, and no combinator on the
path changes it. -/
theorem parseStar_ababa_pause_counterexample :
    ((parseStar 8 concatStringWitnesses (parseConstant "ab" (.str "ab"))
        "ababa" (Success.initial .null)).2.map Failure.pause) ≠ some true := by
  decide

/-- Claim C5 (amended): with join concatenating its list of string witnesses,
parseStar(join, parseConstant("ab")) on input "abab" from position 0 yields a
Success with end 4 and witness "abab"; on input "ababa" it yields a Success
with end 4 and witness "abab" plus a Failure at end 5 whose pause is false. -/
theorem parseStar_ab_amended :
    (((parseStar 8 concatStringWitnesses (parseConstant "ab" (.str "ab"))
        "abab" (Success.initial .null)).1.any fun s =>
          s.endPos == 4 && s.witness.isStr "abab") = true) ∧
    (((parseStar 8 concatStringWitnesses (parseConstant "ab" (.str "ab"))
        "ababa" (Success.initial .null)).1.any fun s =>
          s.endPos == 4 && s.witness.isStr "abab") = true) ∧
    ((parseStar 8 concatStringWitnesses (parseConstant "ab" (.str "ab"))
        "ababa" (Success.initial .null)).2.map Failure.endPos = some 5) ∧
    ((parseStar 8 concatStringWitnesses (parseConstant "ab" (.str "ab"))
        "ababa" (Success.initial .null)).2.map Failure.pause = some false) := by
  decide

/-- Claim C6 (counterexample): parseChoice(parseConstant("cat"),
parseConstant("car")) on input "ca" returns a merged Failure whose completions
list is not the claimed ["t", "r"]: mergeFailures normalizes (sorts) the
merged completions. -/
theorem parseChoice_catcar_counterexample :
    ((parseChoice [parseConstant "cat" (.str "cat"),
        parseConstant "car" (.str "car")] "ca" (Success.initial .null)).2.map
          Failure.completions) ≠ some ["t", "r"] := by
  decide

/-- Claim C6 (amended): parseChoice(parseConstant("cat"), parseConstant("car"))
on input "ca" from position 0 yields no Successes and exactly one merged
Failure with end 2 whose completions list is ["r", "t"] (the two unmatched
suffixes, in the sorted order produced by normalizeCompletions) and whose
pause is false. -/
theorem parseChoice_catcar_amended :
    parseChoice [parseConstant "cat" (.str "cat"),
        parseConstant "car" (.str "car")] "ca" (Success.initial .null)
      = ([], some ⟨[], ["r", "t"], 2, false⟩) :=
  rfl

/-- Claim C9: parseSubset(["a","b","c"], parseConstant(",")) accepts each
constant at most once: it returns a Success consuming the entire input for
"", "a", "a,b" and "c,a,b", but not for "a,a". -/
theorem parseSubset_abc_spec :
    acceptsFully (parseSubset ["a", "b", "c"] (parseConstant "," (.str ","))) "" = true ∧
    acceptsFully (parseSubset ["a", "b", "c"] (parseConstant "," (.str ","))) "a" = true ∧
    acceptsFully (parseSubset ["a", "b", "c"] (parseConstant "," (.str ","))) "a,b" = true ∧
    acceptsFully (parseSubset ["a", "b", "c"] (parseConstant "," (.str ","))) "c,a,b" = true ∧
    acceptsFully (parseSubset ["a", "b", "c"] (parseConstant "," (.str ","))) "a,a" = false := by
  decide

/-- Claim C2: parseConstant(literal) with the default witness: on a full match
(the longest common prefix of the remaining input and the literal is the whole
literal) exactly one Success ending at start + length(literal) with the
literal as witness and no Failure; on a partial or no match, no Successes and
one Failure ending at start + (length of the longest common prefix), whose
completions are the single unmatched suffix of the literal and whose pause is
false.  In particular parseConstant("launch") on "launch" yields one Success
with end 6 and witness "launch" and no Failure, and on "lau" yields no
Successes and one Failure with end 3, completions ["nch"], pause false. -/
theorem parseConstant_spec (c input : String) (s : Success) :
    (commonPrefixLength (input.data.drop s.endPos) c.data = c.data.length →
      parseConstant c (.str c) input s =
        ([⟨s.annotations, s.context, s.endPos + c.data.length, .str c⟩], none)) ∧
    (commonPrefixLength (input.data.drop s.endPos) c.data ≠ c.data.length →
      parseConstant c (.str c) input s =
        ([], some ⟨[],
          [String.mk (c.data.drop
            (commonPrefixLength (input.data.drop s.endPos) c.data))],
          s.endPos + commonPrefixLength (input.data.drop s.endPos) c.data,
          false⟩)) ∧
    parseConstant "launch" (.str "launch") "launch" (Success.initial .null)
      = ([⟨[], .null, 6, .str "launch"⟩], none) ∧
    parseConstant "launch" (.str "launch") "lau" (Success.initial .null)
      = ([], some ⟨[], ["nch"], 3, false⟩) := by
  refine ⟨fun h => ?_, fun h => ?_, rfl, rfl⟩ <;> rw [parseConstant_eq]
  · rw [if_pos h]
  · rw [if_neg h]

/-- Claim C2 witness: the two general cases of parseConstant_spec applied at
concrete inputs. -/
theorem parseConstant_spec_witness :
    parseConstant "go" (.str "go") "gog" (Success.initial .null)
      = ([⟨[], .null, 2, .str "go"⟩], none) ∧
    parseConstant "go" (.str "go") "g" (Success.initial .null)
      = ([], some ⟨[], ["o"], 1, false⟩) :=
  ⟨(parseConstant_spec "go" "gog" (Success.initial .null)).1 (by decide),
   (parseConstant_spec "go" "g" (Success.initial .null)).2.1 (by decide)⟩

/-- Claim C10: every Success returned by parseConstant carries the starting
Success's annotations and context unchanged (only end and witness are new),
while the Failure returned on a partial or no match carries an empty
annotations list, discarding the starting Success's annotations. -/
theorem parseConstant_frame (c : String) (w : JSVal) (input : String) (s : Success) :
    (∀ t ∈ (parseConstant c w input s).1,
      t.annotations = s.annotations ∧ t.context = s.context) ∧
    (∀ fl, (parseConstant c w input s).2 = some fl → fl.annotations = []) := by
  rw [parseConstant_eq]
  split
  · constructor
    · intro t ht
      rw [List.mem_singleton] at ht
      subst ht
      exact ⟨rfl, rfl⟩
    · intro fl h
      simp at h
  · constructor
    · intro t ht
      simp at ht
    · intro fl h
      simp only [Option.some_inj] at h
      subst h
      rfl

/-- Claim C10 witness: parseConstant_frame applied at concrete inputs, on the
success side with a starting Success carrying annotations and a context, and
on the failure side. -/
theorem parseConstant_frame_witness :
    ((parseConstant "ab" (.str "ab") "ab"
        ⟨[⟨0, 1, [("tag", "t")]⟩], .num 7, 0, .null⟩).1.map Success.annotations
      = [[⟨0, 1, [("tag", "t")]⟩]]) ∧
    ((parseConstant "ab" (.str "ab") "x"
        ⟨[⟨0, 1, [("tag", "t")]⟩], .num 7, 0, .null⟩).2.map Failure.annotations
      = some []) := by
  constructor
  · have hres : (parseConstant "ab" (.str "ab") "ab"
        ⟨[⟨0, 1, [("tag", "t")]⟩], .num 7, 0, .null⟩).1
        = [⟨[⟨0, 1, [("tag", "t")]⟩], .num 7, 2, .str "ab"⟩] := rfl
    have h := (parseConstant_frame "ab" (.str "ab") "ab"
        ⟨[⟨0, 1, [("tag", "t")]⟩], .num 7, 0, .null⟩).1
        ⟨[⟨0, 1, [("tag", "t")]⟩], .num 7, 2, .str "ab"⟩
        (by rw [hres]; exact List.mem_singleton_self _)
    rw [hres, List.map_singleton, h.1]
  · have hres : (parseConstant "ab" (.str "ab") "x"
        ⟨[⟨0, 1, [("tag", "t")]⟩], .num 7, 0, .null⟩).2
        = some ⟨[], ["ab"], 0, false⟩ := rfl
    have h := (parseConstant_frame "ab" (.str "ab") "x"
        ⟨[⟨0, 1, [("tag", "t")]⟩], .num 7, 0, .null⟩).2
        ⟨[], ["ab"], 0, false⟩ hres
    rw [hres]
    exact congrArg some h

theorem mem_dedupAppend (l acc : List Annotation) (x : Annotation) :
    x ∈ l.foldl (fun acc a => if a ∈ acc then acc else acc ++ [a]) acc
      ↔ x ∈ acc ∨ x ∈ l := by
  induction l generalizing acc with
  | nil => simp
  | cons a l ih =>
    simp only [List.foldl_cons]
    by_cases h : a ∈ acc
    · rw [if_pos h, ih, List.mem_cons]
      constructor
      · rintro (hx | hx)
        · exact Or.inl hx
        · exact Or.inr (Or.inr hx)
      · rintro (hx | rfl | hx)
        · exact Or.inl hx
        · exact Or.inl h
        · exact Or.inr hx
    · rw [if_neg h, ih]
      simp only [List.mem_append, List.mem_singleton, List.mem_cons]
      tauto

/-- Claim C8: mergeAnnotations(A, B) is the set union of A and B under
structural equality of annotations (equality of the Annotation value type:
equal start, equal end, and equal label fields): an annotation is in the
result exactly when it is in A or in B; consequently mergeAnnotations(A, A)
equals A as a set and mergeAnnotations is commutative as a set union. -/
theorem mergeAnnotations_spec (A B : List Annotation) (x : Annotation) :
    (x ∈ mergeAnnotations A B ↔ x ∈ A ∨ x ∈ B) ∧
    (x ∈ mergeAnnotations A A ↔ x ∈ A) ∧
    (x ∈ mergeAnnotations A B ↔ x ∈ mergeAnnotations B A) := by
  have key : ∀ P Q : List Annotation, x ∈ mergeAnnotations P Q ↔ x ∈ P ∨ x ∈ Q := by
    intro P Q
    unfold mergeAnnotations
    rw [mem_dedupAppend]
    simp [List.mem_append]
  refine ⟨key A B, ?_, ?_⟩
  · rw [key A A]
    tauto
  · rw [key A B, key B A]
    tauto

theorem furthestSuccess_go (l : List Success) (m : Nat) :
    ∃ k, l.foldl (fun acc s =>
        match acc with
        | none => some s.endPos
        | some m => some (max m s.endPos)) (some m) = some k ∧
      m ≤ k ∧ (k = m ∨ ∃ t ∈ l, t.endPos = k) ∧ ∀ u ∈ l, u.endPos ≤ k := by
  induction l generalizing m with
  | nil => exact ⟨m, rfl, le_refl m, Or.inl rfl, by simp⟩
  | cons s l ih =>
    obtain ⟨k, hk, hmk, hor, hall⟩ := ih (max m s.endPos)
    refine ⟨k, hk, le_trans (le_max_left _ _) hmk, ?_, ?_⟩
    · rcases hor with rfl | ⟨t, ht, rfl⟩
      · rcases Nat.le_total s.endPos m with h | h
        · rw [Nat.max_eq_left h]
          exact Or.inl rfl
        · rw [Nat.max_eq_right h]
          exact Or.inr ⟨s, List.mem_cons_self _ _, rfl⟩
      · exact Or.inr ⟨t, List.mem_cons_of_mem _ ht, rfl⟩
    · intro u hu
      rcases List.mem_cons.mp hu with rfl | hu
      · exact le_trans (le_max_right m u.endPos) hmk
      · exact hall u hu

/-- For a nonempty success list, furthestSuccess is the maximum end: it is
attained by some success and bounds every success's end. -/
theorem furthestSuccess_spec (ss : List Success) (hne : ss ≠ []) :
    ∃ k, furthestSuccess ss = some k ∧ (∃ t ∈ ss, t.endPos = k) ∧
      ∀ u ∈ ss, u.endPos ≤ k := by
  match ss, hne with
  | s :: l, _ =>
    obtain ⟨k, hk, hmk, hor, hall⟩ := furthestSuccess_go l s.endPos
    refine ⟨k, ?_, ?_, ?_⟩
    · unfold furthestSuccess
      rw [List.foldl_cons]
      exact hk
    · rcases hor with rfl | ⟨t, ht, rfl⟩
      · exact ⟨s, List.mem_cons_self _ _, rfl⟩
      · exact ⟨t, List.mem_cons_of_mem _ ht, rfl⟩
    · intro u hu
      rcases List.mem_cons.mp hu with rfl | hu
      · exact hmk
      · exact hall u hu

/-- Claim C3: parseWithCompletions(makeCompletions, parser).  If the inner
parser fails, the resulting Failure keeps the inner Failure's annotations and
end, its completions are exactly the list makeCompletions returns (the inner
completions are discarded, not merged), and its pause is false.  If the inner
parser returns no Failure and makeCompletions returns no completions, the
result has no Failure.  If the inner parser returns no Failure (with at least
one Success, as the result invariant guarantees) and makeCompletions returns
a non-empty list, the result carries a Failure at the furthest Success's end
with those completions and pause false. -/
theorem parseWithCompletions_spec
    (makeCompletions : JSVal → Option Failure → Nat → List String)
    (parser : Parser) (input : String) (s : Success) :
    (∀ fl, (parser input s).2 = some fl →
      parseWithCompletions makeCompletions parser input s
        = ((parser input s).1,
           some ⟨fl.annotations, makeCompletions s.context (some fl) s.endPos,
                 fl.endPos, false⟩)) ∧
    ((parser input s).2 = none →
      makeCompletions s.context none s.endPos = [] →
      parseWithCompletions makeCompletions parser input s
        = ((parser input s).1, none)) ∧
    ((parser input s).2 = none →
      makeCompletions s.context none s.endPos ≠ [] →
      (parser input s).1 ≠ [] →
      ∃ fl, parseWithCompletions makeCompletions parser input s
              = ((parser input s).1, some fl) ∧
        fl.completions = makeCompletions s.context none s.endPos ∧
        fl.pause = false ∧
        (∃ t ∈ (parser input s).1, t.endPos = fl.endPos) ∧
        (∀ u ∈ (parser input s).1, u.endPos ≤ fl.endPos)) := by
  refine ⟨?_, ?_, ?_⟩
  · intro fl hfl
    simp only [parseWithCompletions, hfl]
  · intro hf hc
    simp only [parseWithCompletions, hf, hc, List.isEmpty_nil, if_true]
  · intro hf hc hs
    obtain ⟨k, hk, hex, hall⟩ := furthestSuccess_spec (parser input s).1 hs
    refine ⟨⟨mergeSuccessAnnotations (parser input s).1,
             makeCompletions s.context none s.endPos, k, false⟩, ?_, rfl, rfl, hex, hall⟩
    simp only [parseWithCompletions, hf, hk]
    rw [if_neg (by simpa [List.isEmpty_iff] using hc)]
    simp [Option.getD]

/-- Claim C3 witness: the no-failure, non-empty-completions case of
parseWithCompletions_spec at a concrete parser and completion maker. -/
theorem parseWithCompletions_spec_witness :
    ((parseWithCompletions (fun _ _ _ => ["x"]) (parseEmpty (.str "e")) ""
        (Success.initial .null)).2.map Failure.completions = some ["x"]) ∧
    ((parseWithCompletions (fun _ _ _ => ["x"]) (parseEmpty (.str "e")) ""
        (Success.initial .null)).2.map Failure.pause = some false) := by
  obtain ⟨fl, heq, hcomp, hpause, -, -⟩ :=
    (parseWithCompletions_spec (fun _ _ _ => ["x"]) (parseEmpty (.str "e")) ""
      (Success.initial .null)).2.2 rfl (by simp) (List.cons_ne_nil _ _)
  rw [heq]
  exact ⟨congrArg some hcomp, congrArg some hpause⟩

theorem charListLe_total (a b : List Char) :
    charListLe a b = true ∨ charListLe b a = true := by
  induction a generalizing b with
  | nil => exact Or.inl rfl
  | cons x as ih =>
    cases b with
    | nil => exact Or.inr rfl
    | cons y bs =>
      by_cases hxy : x = y
      · subst hxy
        simp only [charListLe, if_pos rfl]
        exact ih bs
      · rcases lt_or_gt_of_ne hxy with h | h
        · exact Or.inl (by simp [charListLe, if_neg hxy, h])
        · exact Or.inr (by simp [charListLe, if_neg (Ne.symm hxy), h])

theorem charListLe_trans {a b c : List Char} (h1 : charListLe a b = true)
    (h2 : charListLe b c = true) : charListLe a c = true := by
  induction a generalizing b c with
  | nil => rfl
  | cons x as ih =>
    cases b with
    | nil => simp [charListLe] at h1
    | cons y bs =>
      cases c with
      | nil => simp [charListLe] at h2
      | cons z cs =>
        simp only [charListLe] at h1 h2 ⊢
        by_cases hxy : x = y <;> by_cases hyz : y = z
        · subst hxy; subst hyz
          rw [if_pos rfl] at h1 h2 ⊢
          exact ih h1 h2
        · subst hxy
          rw [if_pos rfl] at h1
          rw [if_neg hyz] at h2
          rw [if_neg hyz]
          exact h2
        · subst hyz
          rw [if_neg hxy] at h1
          rw [if_neg hxy]
          exact h1
        · rw [if_neg hxy] at h1
          rw [if_neg hyz] at h2
          have hxz : x < z := lt_trans (of_decide_eq_true h1) (of_decide_eq_true h2)
          rw [if_neg (ne_of_lt hxz)]
          exact decide_eq_true hxz

theorem charListLe_antisymm {a b : List Char} (h1 : charListLe a b = true)
    (h2 : charListLe b a = true) : a = b := by
  induction a generalizing b with
  | nil =>
    cases b with
    | nil => rfl
    | cons y bs => simp [charListLe] at h2
  | cons x as ih =>
    cases b with
    | nil => simp [charListLe] at h1
    | cons y bs =>
      simp only [charListLe] at h1 h2
      by_cases hxy : x = y
      · subst hxy
        rw [if_pos rfl] at h1 h2
        rw [ih h1 h2]
      · rw [if_neg hxy] at h1
        rw [if_neg (Ne.symm hxy)] at h2
        exact absurd (of_decide_eq_true h1) (asymm (of_decide_eq_true h2))

theorem isPrefixOf_self (l : List Char) : l.isPrefixOf l = true := by
  induction l with
  | nil => rfl
  | cons x xs ih => simp [List.isPrefixOf, ih]

theorem isPrefixOf_charListLe {a b : List Char} (h : a.isPrefixOf b = true) :
    charListLe a b = true := by
  induction a generalizing b with
  | nil => rfl
  | cons x as ih =>
    cases b with
    | nil => simp [List.isPrefixOf] at h
    | cons y bs =>
      simp only [List.isPrefixOf, Bool.and_eq_true, beq_iff_eq] at h
      obtain ⟨rfl, h⟩ := h
      simp only [charListLe, if_pos rfl]
      exact ih h

/-- Interpolation in the lexicographic order: a common prefix of the endpoints
of a chain u <= v <= w is a prefix of the middle as well. -/
theorem isPrefixOf_interpolate {u v w : List Char} (huv : charListLe u v = true)
    (hvw : charListLe v w = true) (h : u.isPrefixOf w = true) :
    u.isPrefixOf v = true := by
  induction u generalizing v w with
  | nil => cases v <;> simp [List.isPrefixOf]
  | cons x us ih =>
    cases w with
    | nil => simp [List.isPrefixOf] at h
    | cons z ws =>
      simp only [List.isPrefixOf, Bool.and_eq_true, beq_iff_eq] at h
      obtain ⟨rfl, h⟩ := h
      cases v with
      | nil => simp [charListLe] at huv
      | cons y vs =>
        simp only [charListLe] at huv hvw
        by_cases hxy : x = y
        · subst hxy
          rw [if_pos rfl] at huv hvw
          simp only [List.isPrefixOf, Bool.and_eq_true, beq_iff_eq]
          exact ⟨trivial, ih huv hvw h⟩
        · rw [if_neg hxy] at huv
          rw [if_neg (Ne.symm hxy)] at hvw
          exact absurd (of_decide_eq_true huv) (asymm (of_decide_eq_true hvw))

theorem strLe_trans {a b c : String} (h1 : strLe a b = true)
    (h2 : strLe b c = true) : strLe a c = true :=
  charListLe_trans h1 h2

theorem strLe_antisymm {a b : String} (h1 : strLe a b = true)
    (h2 : strLe b a = true) : a = b :=
  String.ext (charListLe_antisymm h1 h2)

theorem mem_insertSorted {x s : String} {l : List String} :
    x ∈ insertSorted s l ↔ x = s ∨ x ∈ l := by
  induction l with
  | nil => simp [insertSorted]
  | cons c rest ih =>
    simp only [insertSorted]
    split
    · simp [List.mem_cons]
    · simp only [List.mem_cons, ih]
      tauto

theorem insertSorted_sorted {s : String} {l : List String}
    (h : l.Pairwise (fun a b => strLe a b = true)) :
    (insertSorted s l).Pairwise (fun a b => strLe a b = true) := by
  induction l with
  | nil => simp [insertSorted]
  | cons c rest ih =>
    obtain ⟨hhead, htail⟩ := List.pairwise_cons.mp h
    simp only [insertSorted]
    split
    · rename_i hsc
      rw [List.pairwise_cons]
      refine ⟨?_, h⟩
      intro d hd
      rcases List.mem_cons.mp hd with rfl | hd
      · exact hsc
      · exact strLe_trans hsc (hhead d hd)
    · rename_i hsc
      rw [List.pairwise_cons]
      refine ⟨?_, ih htail⟩
      intro d hd
      rcases mem_insertSorted.mp hd with rfl | hd
      · rcases charListLe_total c.data d.data with hc | hc
        · exact hc
        · exact absurd hc (by simpa [strLe] using hsc)
      · exact hhead d hd

theorem sortStrings_sorted (l : List String) :
    (sortStrings l).Pairwise (fun a b => strLe a b = true) := by
  induction l with
  | nil => simp [sortStrings]
  | cons s rest ih => exact insertSorted_sorted ih

theorem insertSorted_head {s : String} {l : List String}
    (h : ∀ c ∈ l, strLe s c = true) : insertSorted s l = s :: l := by
  cases l with
  | nil => rfl
  | cons c rest =>
    simp only [insertSorted]
    rw [if_pos (h c (List.mem_cons_self _ _))]

theorem sortStrings_eq_of_sorted {l : List String}
    (h : l.Pairwise (fun a b => strLe a b = true)) : sortStrings l = l := by
  induction l with
  | nil => rfl
  | cons a rest ih =>
    obtain ⟨hhead, htail⟩ := List.pairwise_cons.mp h
    simp only [sortStrings]
    rw [ih htail, insertSorted_head hhead]

theorem retainShortest_subset {x : String} : ∀ {last : String} {l : List String},
    x ∈ retainShortest last l → x ∈ l := by
  intro last l
  induction l generalizing last with
  | nil => simp [retainShortest]
  | cons c rest ih =>
    simp only [retainShortest]
    split
    · intro h
      exact List.mem_cons_of_mem _ (ih h)
    · intro h
      rcases List.mem_cons.mp h with rfl | h
      · exact List.mem_cons_self _ _
      · exact List.mem_cons_of_mem _ (ih h)

/-- The retained entries of the sorted tail, together with the entry last
retained before them, are sorted and mutually extension-free. -/
theorem retainShortest_pairwise (last : String) (l : List String)
    (hsort : l.Pairwise (fun a b => strLe a b = true))
    (hge : ∀ c ∈ l, strLe last c = true) :
    (last :: retainShortest last l).Pairwise
      (fun a b => strLe a b = true ∧ jsStartsWith b a = false) := by
  induction l generalizing last with
  | nil => simp [retainShortest]
  | cons c rest ih =>
    obtain ⟨hchead, hctail⟩ := List.pairwise_cons.mp hsort
    simp only [retainShortest]
    by_cases hpre : jsStartsWith c last = true
    · rw [if_pos hpre]
      exact ih last hctail (fun d hd => hge d (List.mem_cons_of_mem _ hd))
    · rw [if_neg hpre]
      have hkeep := ih c hctail hchead
      rw [List.pairwise_cons]
      refine ⟨?_, hkeep⟩
      intro d hd
      rcases List.mem_cons.mp hd with rfl | hd
      · exact ⟨hge d (List.mem_cons_self _ _), Bool.not_eq_true _ ▸ hpre⟩
      · have hdrest : d ∈ rest := retainShortest_subset hd
        refine ⟨hge d (List.mem_cons_of_mem _ hdrest), ?_⟩
        by_contra hcon
        have hdl : jsStartsWith d last = true := by
          simpa using hcon
        exact hpre (isPrefixOf_interpolate (hge c (List.mem_cons_self _ _))
          (hchead d hdrest) hdl)

/-- On a list whose consecutive entries never extend an earlier retained
entry, the retain loop keeps everything. -/
theorem retainShortest_of_pairwise (last : String) (l : List String)
    (hhead : ∀ c ∈ l, jsStartsWith c last = false)
    (hpair : l.Pairwise (fun a b => jsStartsWith b a = false)) :
    retainShortest last l = l := by
  induction l generalizing last with
  | nil => rfl
  | cons c rest ih =>
    obtain ⟨hc, htail⟩ := List.pairwise_cons.mp hpair
    simp only [retainShortest]
    rw [if_neg (by simp [hhead c (List.mem_cons_self _ _)]), ih c hc htail]

theorem normalizeCompletions_pairwise (xs : List String) :
    (normalizeCompletions xs).Pairwise
      (fun a b => strLe a b = true ∧ jsStartsWith b a = false) := by
  unfold normalizeCompletions
  cases hs : sortStrings xs with
  | nil => simp
  | cons first rest =>
    have hsorted := hs ▸ sortStrings_sorted xs
    obtain ⟨hhead, htail⟩ := List.pairwise_cons.mp hsorted
    exact retainShortest_pairwise first rest htail hhead

/-- Lists that are sorted and extension-free are fixed points of
normalizeCompletions. -/
theorem normalizeCompletions_fixed {l : List String}
    (hpair : l.Pairwise (fun a b => strLe a b = true ∧ jsStartsWith b a = false)) :
    normalizeCompletions l = l := by
  have hsorted : l.Pairwise (fun a b => strLe a b = true) :=
    hpair.imp fun h => h.1
  unfold normalizeCompletions
  rw [sortStrings_eq_of_sorted hsorted]
  cases l with
  | nil => rfl
  | cons first rest =>
    obtain ⟨hhead, htail⟩ := List.pairwise_cons.mp hpair
    show first :: retainShortest first rest = first :: rest
    rw [retainShortest_of_pairwise first rest (fun c hc => (hhead c hc).2)
        (htail.imp fun h => h.2)]

/-- Claim C7: normalizeCompletions is idempotent, and no element of the
result is a proper prefix-extension of another element of the result: for
distinct members x and y of the result, x does not start with y. -/
theorem normalizeCompletions_spec (xs : List String) :
    normalizeCompletions (normalizeCompletions xs) = normalizeCompletions xs ∧
    ∀ x ∈ normalizeCompletions xs, ∀ y ∈ normalizeCompletions xs,
      x ≠ y → jsStartsWith x y = false := by
  have hpair := normalizeCompletions_pairwise xs
  refine ⟨normalizeCompletions_fixed hpair, ?_⟩
  have hsym : (normalizeCompletions xs).Pairwise
      (fun a b => jsStartsWith b a = false ∧ jsStartsWith a b = false) := by
    refine hpair.imp fun {a b} h => ⟨h.2, ?_⟩
    by_contra hcon
    have hab : jsStartsWith a b = true := by simpa using hcon
    have hba : strLe b a = true := isPrefixOf_charListLe hab
    have : a = b := strLe_antisymm h.1 hba
    subst this
    rw [h.2] at hab
    exact Bool.false_ne_true hab
  intro x hx y hy hxy
  exact (hsym.forall (fun a b h => ⟨h.2, h.1⟩) hx hy hxy).2

/-- Claim C7 witness: normalizeCompletions_spec applied at a concrete list in
which one entry extends another. -/
theorem normalizeCompletions_spec_witness :
    normalizeCompletions (normalizeCompletions ["yes", "yesterday", "no"])
      = normalizeCompletions ["yes", "yesterday", "no"] ∧
    jsStartsWith "no" "yes" = false := by
  refine ⟨(normalizeCompletions_spec ["yes", "yesterday", "no"]).1, ?_⟩
  exact (normalizeCompletions_spec ["yes", "yesterday", "no"]).2 "no" (by decide)
    "yes" (by decide) (by decide)

end CommandJS
